import Mathlib

/-!
Verification of `split_pdf_by_index.py`.

This file gives a shallow embedding, in Lean 4, of the pure core of the
script `split_pdf_by_index.py`: label parsing (decimal and roman-numeral
page labels), TSV index loading, anchor selection, offset computation,
sorting, page-range derivation with clipping, and output-file naming.
Strings are modelled as Lean `String` (lists of characters); pages are
modelled as `Int`, since the offset arithmetic can go negative.  The I/O
shell (stdin reading, PyPDF2 calls, file writing, printed diagnostics) is
not modelled: a skipped row or dropped range is represented by `none` /
omission from the result list, and a fatal exit by an `Option`-valued
pipeline returning `none`.
-/

namespace PdfSplit

/-- Characters stripped by Python's `str.strip()`, restricted to ASCII
whitespace.  Python also strips a few non-ASCII whitespace characters, so
`strip` below is faithful exactly on strings without non-ASCII whitespace
at their ends (in particular on all-ASCII strings, the domain of the
ASCII-restricted claims). -/
def isPySpace (c : Char) : Bool :=
  c = ' ' || c = '\t' || c = '\n' || c = '\r' || c = '\x0b' || c = '\x0c'

/-- `str.strip()` on a character list: drop whitespace from both ends. -/
def stripChars (l : List Char) : List Char :=
  ((l.dropWhile isPySpace).reverse.dropWhile isPySpace).reverse

/-- Python `s.strip()`. -/
def strip (s : String) : String :=
  String.mk (stripChars s.data)

/-- Python `line.split("\t")` on a character list: split at every tab,
keeping empty fields; always returns at least one field. -/
def splitTab : List Char → List (List Char)
  | [] => [[]]
  | c :: cs =>
    if c = '\t' then [] :: splitTab cs
    else
      match splitTab cs with
      | [] => [[c]]
      | h :: t => (c :: h) :: t

/-- The cells of a TSV line: `line.split("\t")`. -/
def rowCells (line : String) : List String :=
  (splitTab line.data).map String.mk

/-- The symbol-value table `roman_map` of `roman_to_int` (lowercase keys
only; a character outside the table is a lookup failure, i.e. a Python
`KeyError`). -/
def romanMap (c : Char) : Option Int :=
  if c = 'm' then some 1000
  else if c = 'd' then some 500
  else if c = 'c' then some 100
  else if c = 'l' then some 50
  else if c = 'x' then some 10
  else if c = 'v' then some 5
  else if c = 'i' then some 1
  else none

/-- The accumulation loop of `roman_to_int`: walk the (already reversed)
character list carrying `result` and `prev_value`; add a symbol's value
when it is `≥` the previous (right-neighbour) value, subtract otherwise.
A failed table lookup makes the whole decode fail. -/
def romanLoop : List Char → Int → Int → Option Int
  | [], result, _ => some result
  | c :: cs, result, prev =>
    match romanMap c with
    | none => none
    | some value =>
        romanLoop cs (if prev ≤ value then result + value else result - value) value

/-- `roman_to_int(roman)`: lowercase the string, then run the loop over
`reversed(roman)` with `result = 0`, `prev_value = 0`. -/
def roman_to_int (s : String) : Option Int :=
  romanLoop (s.data.map Char.toLower).reverse 0 0

/-- The character class `[IVXLCDMivxlcdm]` of `looks_like_roman`. -/
def isRomanChar (c : Char) : Bool :=
  c = 'I' || c = 'V' || c = 'X' || c = 'L' || c = 'C' || c = 'D' || c = 'M' ||
  c = 'i' || c = 'v' || c = 'x' || c = 'l' || c = 'c' || c = 'd' || c = 'm'

/-- `looks_like_roman(s)`: `re.match(r'^[IVXLCDMivxlcdm]+$', s.strip())`,
i.e. the stripped string is non-empty and all its characters are roman
symbols in either case. -/
def looks_like_roman (s : String) : Bool :=
  !(strip s).data.isEmpty && (strip s).data.all isRomanChar

/-- Python `str.isdigit()` restricted to ASCII: non-empty and all
characters in `0`..`9`.  Python's `isdigit` is Unicode-aware and accepts
more characters; this restriction is faithful on all-ASCII strings, and
`pyIsDigitChar` below models the Unicode behaviour on the non-ASCII
characters used in this development. -/
def isDigitString (s : String) : Bool :=
  !s.data.isEmpty && s.data.all Char.isDigit

/-- Python `int()` on a decimal-digit string. -/
def decimalValue (s : String) : Nat :=
  s.data.foldl (fun a c => a * 10 + (c.toNat - 48)) 0

/-- The per-label branch of `main` (the spec's `parse_label`): strip the
token; if it is all ASCII digits take its decimal value, else if it looks
like a roman numeral decode it, else fail (row will be skipped). -/
def parse_label (token : String) : Option Int :=
  let page := strip token
  if isDigitString page then some ((decimalValue page : Int))
  else if looks_like_roman page then roman_to_int page
  else none

/-- One row of the TSV: split by tab; fewer than two cells means the row
is skipped; otherwise the first cell (stripped) is the title and the
second cell's parsed label the ordinal. -/
def parseRow (line : String) : Option (String × Int) :=
  match rowCells line with
  | t0 :: p :: _ => (parse_label p).map (fun n => (strip t0, n))
  | _ => none

/-- Header detection of `main`: drop the first line exactly when its
tab-split cells include both `"PDF File Name"` and `"PDF Page"`. -/
def dataLines : List String → List String
  | [] => []
  | first :: rest =>
    if "PDF File Name" ∈ rowCells first ∧ "PDF Page" ∈ rowCells first
    then rest
    else first :: rest

/-- The entry-building loop of `main`: append each successfully parsed
row to the accumulator, in line order. -/
def entriesLoop (acc : List (String × Int)) : List String → List (String × Int)
  | [] => acc
  | l :: ls =>
      entriesLoop (match parseRow l with
                   | some e => acc ++ [e]
                   | none => acc) ls

/-- `entries` as built by `main` from the TSV lines. -/
def load_entries (ls : List String) : List (String × Int) :=
  entriesLoop [] (dataLines ls)

/-- `numeric_entries`: the entries with a strictly positive ordinal. -/
def numeric_entries (es : List (String × Int)) : List (String × Int) :=
  es.filter (fun e => 0 < e.2)

/-- Python `min(numeric_entries, key=lambda x: x[1])`: scan left to
right, replacing the current best only on a strictly smaller key, so the
first occurrence of the minimum wins; `none` on an empty list (in the
script this is the fatal `NoNumericEntries` exit). -/
def minByPage : List (String × Int) → Option (String × Int)
  | [] => none
  | x :: xs => some (xs.foldl (fun best y => if y.2 < best.2 then y else best) x)

/-- The anchor entry: first entry attaining the minimal positive ordinal. -/
def firstNumbered (es : List (String × Int)) : Option (String × Int) :=
  minByPage (numeric_entries es)

/-- `offset = actual_pdf_page_for_first_numbered - first_numbered_index_page`
(`none` when there is no numeric entry). -/
def offsetOf (es : List (String × Int)) (actual : Int) : Option Int :=
  (firstNumbered es).map (fun a => actual - a.2)

/-- `adjusted_entries`: every entry's ordinal shifted by the offset. -/
def adjusted_entries (es : List (String × Int)) (off : Int) : List (String × Int) :=
  es.map (fun e => (e.1, e.2 + off))

/-- Stable ascending insertion by page: the new element goes after every
element whose page is `≤` its own. -/
def insertSorted (x : String × Int) : List (String × Int) → List (String × Int)
  | [] => [x]
  | y :: ys => if x.2 < y.2 then x :: y :: ys else y :: insertSorted x ys

/-- `adjusted_entries.sort(key=lambda x: x[1])`: Python's stable
ascending sort, realised as left-to-right stable insertion. -/
def sortByPage (l : List (String × Int)) : List (String × Int) :=
  l.foldl (fun acc x => insertSorted x acc) []

/-- The in-loop safety check of `main` on a candidate 1-based range
`[s, e]`: convert to 0-based, clamp the start up to 0 and the end down to
`total - 1`, and drop the range (`none`) when the clamped end is below
the clamped start. -/
def clip0 (total s e : Int) : Option (Int × Int) :=
  let s0 := s - 1
  let e0 := e - 1
  let s0 := if s0 < 0 then 0 else s0
  let e0 := if total ≤ e0 then total - 1 else e0
  if e0 < s0 then none else some (s0, e0)

/-- A surviving output range: `idx` is the 0-based position of the entry
in the sorted adjusted list (the loop's `enumerate` index), `start0` and
`end0` the inclusive 0-based page bounds actually extracted. -/
structure OutRange where
  idx : Nat
  title : String
  start0 : Int
  end0 : Int
  deriving DecidableEq

/-- The candidate end page for the entry at the head of the remaining
sorted list: one before the next entry's page, or the document page
count for the last entry. -/
def candEnd (total : Int) : List (String × Int) → Int
  | [] => total
  | (_, ns) :: _ => ns - 1

/-- The splitting loop of `main` over the sorted adjusted entries,
carrying the `enumerate` index: clip each candidate range and either
emit it or skip it. -/
def rangesLoop (total : Int) : Nat → List (String × Int) → List OutRange
  | _, [] => []
  | i, (t, s) :: rest =>
    match clip0 total s (candEnd total rest) with
    | none => rangesLoop total (i + 1) rest
    | some (a, b) => ⟨i, t, a, b⟩ :: rangesLoop total (i + 1) rest

/-- The raw candidate ranges (before clipping), with their `enumerate`
indices: `(i, title, start, end)` in 1-based page numbers. -/
def candidatesFrom (total : Int) : Nat → List (String × Int) → List (Nat × String × Int × Int)
  | _, [] => []
  | i, (t, s) :: rest => (i, t, s, candEnd total rest) :: candidatesFrom total (i + 1) rest

/-- The whole resolution pipeline of `main` after parsing: pick the
anchor, compute the offset, shift every entry, sort by physical page,
and run the splitting loop; `none` models the fatal `NoNumericEntries`
exit. -/
def resolveRanges (es : List (String × Int)) (actual total : Int) :
    Option (List OutRange) :=
  (firstNumbered es).map (fun a =>
    rangesLoop total 0 (sortByPage (adjusted_entries es (actual - a.2))))

/-- The emitted ranges in 1-based physical pages, as printed by the
script (`Pages start_0based+1 – end_0based+1`). -/
def pageRanges (es : List (String × Int)) (actual total : Int) :
    Option (List (String × Int × Int)) :=
  (resolveRanges es actual total).map
    (List.map (fun r => (r.title, r.start0 + 1, r.end0 + 1)))

/-- `sanitize_filename`: `re.sub(r'[\\/:*?"<>|]', '_', filename)`,
replacing each character of the class by an underscore. -/
def sanitize_filename (s : String) : String :=
  String.mk (s.data.map (fun c =>
    if c = '\\' || c = '/' || c = ':' || c = '*' || c = '?' || c = '"' ||
       c = '<' || c = '>' || c = '|' then '_' else c))

/-- Python `f"{n:02d}"` for a natural number: left-pad with `0` to width 2. -/
def pad2 (n : Nat) : String :=
  if n < 10 then "0" ++ toString n else toString n

/-- `f"{file_index:02d} {sanitize_filename(title)}.pdf"` where
`file_index = i + 1` and `i` is the loop's `enumerate` index. -/
def filenameOf (i : Nat) (title : String) : String :=
  pad2 (i + 1) ++ " " ++ sanitize_filename title ++ ".pdf"

/-- The list of output filenames the run creates, in emission order. -/
def outputFilenames (es : List (String × Int)) (actual total : Int) :
    Option (List String) :=
  (resolveRanges es actual total).map (List.map (fun r => filenameOf r.idx r.title))

/-- The symbol values of the spec's decoding rule, on symbols in either
case (0 on a non-symbol, never reached under the guard). -/
def specSymbolValue (c : Char) : Int :=
  if c = 'M' || c = 'm' then 1000
  else if c = 'D' || c = 'd' then 500
  else if c = 'C' || c = 'c' then 100
  else if c = 'L' || c = 'l' then 50
  else if c = 'X' || c = 'x' then 10
  else if c = 'V' || c = 'v' then 5
  else if c = 'I' || c = 'i' then 1
  else 0

/-- The spec's decoding rule, stated on the list of symbol values taken
least-significant first: add a value when it is `≥` the value already
seen to its right, subtract it otherwise. -/
def specDecodeAux : List Int → Int → Int → Int
  | [], acc, _ => acc
  | v :: vs, acc, prev => specDecodeAux vs (if prev ≤ v then acc + v else acc - v) v

/-- The spec's decoder on a token: process its symbols from
least-significant (rightmost) to most-significant position. -/
def specDecode (s : String) : Int :=
  specDecodeAux (s.data.reverse.map specSymbolValue) 0 0

deriving instance DecidableEq for Except

theorem head?_dropWhile_false (p : Char → Bool) (l : List Char) :
    ∀ c, (l.dropWhile p).head? = some c → p c = false := by
  intro c hc
  have h := List.head?_dropWhile_not p l
  rw [hc] at h
  exact h

theorem dropWhile_eq_self_of_head (p : Char → Bool) (l : List Char)
    (h : ∀ c, l.head? = some c → p c = false) : l.dropWhile p = l := by
  cases l with
  | nil => rfl
  | cons x xs => simp [List.dropWhile_cons, h x rfl]

theorem stripChars_head (l : List Char) :
    ∀ c, (stripChars l).head? = some c → isPySpace c = false := by
  intro c hc
  unfold stripChars at hc
  rw [List.head?_reverse] at hc
  have hsplit := List.takeWhile_append_dropWhile isPySpace (l.dropWhile isPySpace).reverse
  have hne : (l.dropWhile isPySpace).reverse.dropWhile isPySpace ≠ [] := by
    intro hnil; rw [hnil] at hc; exact Option.noConfusion hc
  have hlast : ((l.dropWhile isPySpace).reverse).getLast? = some c := by
    rw [← hsplit, List.getLast?_append_of_ne_nil _ hne]
    exact hc
  rw [List.getLast?_reverse] at hlast
  exact head?_dropWhile_false isPySpace l c hlast

theorem stripChars_getLast (l : List Char) :
    ∀ c, (stripChars l).getLast? = some c → isPySpace c = false := by
  intro c hc
  unfold stripChars at hc
  rw [List.getLast?_reverse] at hc
  exact head?_dropWhile_false isPySpace _ c hc

theorem stripChars_idem (l : List Char) : stripChars (stripChars l) = stripChars l := by
  have h1 : (stripChars l).dropWhile isPySpace = stripChars l :=
    dropWhile_eq_self_of_head _ _ (stripChars_head l)
  have h2 : (stripChars l).reverse.dropWhile isPySpace = (stripChars l).reverse := by
    apply dropWhile_eq_self_of_head
    intro c hc
    rw [List.head?_reverse] at hc
    exact stripChars_getLast l c hc
  show (((stripChars l).dropWhile isPySpace).reverse.dropWhile isPySpace).reverse = stripChars l
  rw [h1, h2, List.reverse_reverse]

theorem strip_strip (s : String) : strip (strip s) = strip s := by
  show String.mk (stripChars (stripChars s.data)) = String.mk (stripChars s.data)
  rw [stripChars_idem]

theorem looks_like_roman_strip (s : String) :
    looks_like_roman (strip s) = looks_like_roman s := by
  unfold looks_like_roman
  rw [strip_strip]

theorem romanMap_toLower (c : Char) (h : isRomanChar c = true) :
    romanMap c.toLower = some (specSymbolValue c) := by
  revert h
  simp only [isRomanChar, Bool.or_eq_true, decide_eq_true_eq]
  rintro (((((((((((((rfl | rfl) | rfl) | rfl) | rfl) | rfl) | rfl) | rfl) | rfl) | rfl) | rfl) | rfl) | rfl) | rfl) <;>
    decide

theorem romanLoop_total (l : List Char) (h : ∀ c ∈ l, (romanMap c).isSome = true) :
    ∀ acc prev, (romanLoop l acc prev).isSome = true := by
  induction l with
  | nil => intro acc prev; rfl
  | cons c cs ih =>
    intro acc prev
    have hc := h c (List.mem_cons_self c cs)
    cases hm : romanMap c with
    | none => rw [hm] at hc; exact absurd hc (by simp)
    | some v =>
      simp only [romanLoop, hm]
      exact ih (fun x hx => h x (List.mem_cons_of_mem c hx)) _ _

theorem roman_to_int_total (s : String) (h : s.data.all isRomanChar = true) :
    (roman_to_int s).isSome = true := by
  unfold roman_to_int
  apply romanLoop_total
  intro c hc
  rw [List.mem_reverse] at hc
  rcases List.mem_map.mp hc with ⟨d, hd, rfl⟩
  have hd2 : isRomanChar d = true := List.all_eq_true.mp h d hd
  rw [romanMap_toLower d hd2]
  rfl

theorem romanLoop_eq_spec (l : List Char) (h : ∀ c ∈ l, isRomanChar c = true) :
    ∀ acc prev, romanLoop (l.map Char.toLower) acc prev =
      some (specDecodeAux (l.map specSymbolValue) acc prev) := by
  induction l with
  | nil => intro acc prev; rfl
  | cons c cs ih =>
    intro acc prev
    have hc := romanMap_toLower c (h c (List.mem_cons_self c cs))
    simp only [List.map_cons, romanLoop, hc, specDecodeAux]
    exact ih (fun x hx => h x (List.mem_cons_of_mem c hx)) _ _

theorem roman_to_int_eq_specDecode (s : String) (h : s.data.all isRomanChar = true) :
    roman_to_int s = some (specDecode s) := by
  unfold roman_to_int specDecode
  rw [← List.map_reverse]
  exact romanLoop_eq_spec s.data.reverse
    (fun c hc => List.all_eq_true.mp h c (List.mem_reverse.mp hc)) 0 0

theorem isRomanChar_not_digit (c : Char) (h : isRomanChar c = true) :
    c.isDigit = false := by
  revert h
  simp only [isRomanChar, Bool.or_eq_true, decide_eq_true_eq]
  rintro (((((((((((((rfl | rfl) | rfl) | rfl) | rfl) | rfl) | rfl) | rfl) | rfl) | rfl) | rfl) | rfl) | rfl) | rfl) <;>
    decide

/-! ### Helper lemmas about anchor selection -/

theorem foldl_min_split (xs : List (String × Int)) :
    ∀ x : String × Int,
      ∃ l1 l2,
        x :: xs =
          l1 ++ (xs.foldl (fun best y => if y.2 < best.2 then y else best) x) :: l2
        ∧ (∀ b ∈ l1, (xs.foldl (fun best y => if y.2 < best.2 then y else best) x).2 < b.2)
        ∧ (∀ b ∈ l2, (xs.foldl (fun best y => if y.2 < best.2 then y else best) x).2 ≤ b.2) := by
  induction xs with
  | nil =>
    intro x
    exact ⟨[], [], rfl, by intro b hb; exact absurd hb (List.not_mem_nil b),
      by intro b hb; exact absurd hb (List.not_mem_nil b)⟩
  | cons y ys ih =>
    intro x
    rw [List.foldl_cons]
    by_cases hy : y.2 < x.2
    · rw [if_pos hy]
      obtain ⟨m1, m2, heq, h1, h2⟩ := ih y
      have hmy : (ys.foldl (fun best y => if y.2 < best.2 then y else best) y).2 ≤ y.2 := by
        cases m1 with
        | nil =>
          have : y = ys.foldl (fun best y => if y.2 < best.2 then y else best) y :=
            (List.cons.injEq _ _ _ _ ▸ heq).1
          rw [← this]
        | cons z t =>
          have hz : z = y := by
            have := (List.cons.injEq _ _ _ _ ▸ heq).1
            exact this.symm
          have := h1 z (List.mem_cons_self z t)
          rw [hz] at this
          exact le_of_lt this
      refine ⟨x :: m1, m2, ?_, ?_, h2⟩
      · rw [List.cons_append, ← heq]
      · intro b hb
        rcases List.mem_cons.mp hb with rfl | hb
        · exact lt_of_le_of_lt hmy hy
        · exact h1 b hb
    · rw [if_neg hy]
      have hxy : x.2 ≤ y.2 := le_of_not_lt hy
      obtain ⟨m1, m2, heq, h1, h2⟩ := ih x
      cases m1 with
      | nil =>
        have hx : x = ys.foldl (fun best y => if y.2 < best.2 then y else best) x :=
          (List.cons.injEq _ _ _ _ ▸ heq).1
        have hys : ys = m2 := (List.cons.injEq _ _ _ _ ▸ heq).2
        refine ⟨[], y :: m2, ?_, ?_, ?_⟩
        · rw [List.nil_append, ← hx, hys]
        · intro b hb; exact absurd hb (List.not_mem_nil b)
        · intro b hb
          rcases List.mem_cons.mp hb with rfl | hb
          · rw [← hx]; exact hxy
          · exact h2 b hb
      | cons z t =>
        have hz : x = z := (List.cons.injEq _ _ _ _ ▸ heq).1
        have hys : ys = t ++ (ys.foldl (fun best y => if y.2 < best.2 then y else best) x) :: m2 :=
          (List.cons.injEq _ _ _ _ ▸ heq).2
        refine ⟨x :: y :: t, m2, ?_, ?_, h2⟩
        · rw [List.cons_append, List.cons_append, ← hys]
        · intro b hb
          have hxm : (ys.foldl (fun best y => if y.2 < best.2 then y else best) x).2 < x.2 := by
            have := h1 z (List.mem_cons_self z t)
            rw [← hz] at this
            exact this
          rcases List.mem_cons.mp hb with rfl | hb
          · exact hxm
          · rcases List.mem_cons.mp hb with rfl | hb
            · exact lt_of_lt_of_le hxm hxy
            · exact h1 b (List.mem_cons_of_mem z hb)

theorem firstNumbered_split (es : List (String × Int)) (a : String × Int)
    (h : firstNumbered es = some a) :
    ∃ l1 l2, numeric_entries es = l1 ++ a :: l2
      ∧ (∀ b ∈ l1, a.2 < b.2) ∧ (∀ b ∈ l2, a.2 ≤ b.2) := by
  unfold firstNumbered minByPage at h
  cases hne : numeric_entries es with
  | nil => rw [hne] at h; exact Option.noConfusion h
  | cons x xs =>
    rw [hne] at h
    have ha : xs.foldl (fun best y => if y.2 < best.2 then y else best) x = a :=
      Option.some.injEq _ _ ▸ h
    obtain ⟨l1, l2, heq, h1, h2⟩ := foldl_min_split xs x
    rw [ha] at heq h1 h2
    exact ⟨l1, l2, heq, h1, h2⟩

theorem firstNumbered_mem (es : List (String × Int)) (a : String × Int)
    (h : firstNumbered es = some a) : a ∈ numeric_entries es := by
  obtain ⟨l1, l2, heq, -, -⟩ := firstNumbered_split es a h
  rw [heq]
  exact List.mem_append_right l1 (List.mem_cons_self a l2)

theorem firstNumbered_pos (es : List (String × Int)) (a : String × Int)
    (h : firstNumbered es = some a) : 0 < a.2 := by
  have hm := firstNumbered_mem es a h
  unfold numeric_entries at hm
  have := (List.mem_filter.mp hm).2
  exact of_decide_eq_true this

theorem firstNumbered_none_iff (es : List (String × Int)) :
    firstNumbered es = none ↔ numeric_entries es = [] := by
  unfold firstNumbered minByPage
  cases numeric_entries es with
  | nil => simp
  | cons x xs => simp

/-! ### Helper lemmas about sorting -/

theorem mem_insertSorted (x z : String × Int) (l : List (String × Int))
    (h : z ∈ insertSorted x l) : z = x ∨ z ∈ l := by
  induction l with
  | nil =>
    simp only [insertSorted] at h
    rcases List.mem_cons.mp h with rfl | h
    · exact Or.inl rfl
    · exact absurd h (List.not_mem_nil z)
  | cons y ys ih =>
    simp only [insertSorted] at h
    by_cases hc : x.2 < y.2
    · rw [if_pos hc] at h
      rcases List.mem_cons.mp h with rfl | h
      · exact Or.inl rfl
      · exact Or.inr h
    · rw [if_neg hc] at h
      rcases List.mem_cons.mp h with rfl | h
      · exact Or.inr (List.mem_cons_self _ _)
      · rcases ih h with h3 | h3
        · exact Or.inl h3
        · exact Or.inr (List.mem_cons_of_mem _ h3)

theorem pairwise_insertSorted (x : String × Int) (l : List (String × Int))
    (h : l.Pairwise (fun a b => a.2 ≤ b.2)) :
    (insertSorted x l).Pairwise (fun a b => a.2 ≤ b.2) := by
  induction l with
  | nil => simp [insertSorted]
  | cons y ys ih =>
    rcases List.pairwise_cons.mp h with ⟨hy, hys⟩
    simp only [insertSorted]
    by_cases hc : x.2 < y.2
    · rw [if_pos hc]
      refine List.pairwise_cons.mpr ⟨?_, h⟩
      intro b hb
      rcases List.mem_cons.mp hb with rfl | hb
      · exact le_of_lt hc
      · exact le_trans (le_of_lt hc) (hy b hb)
    · rw [if_neg hc]
      refine List.pairwise_cons.mpr ⟨?_, ih hys⟩
      intro b hb
      rcases mem_insertSorted x b ys hb with rfl | hb
      · exact le_of_not_lt hc
      · exact hy b hb

theorem pairwise_sortByPage (l : List (String × Int)) :
    (sortByPage l).Pairwise (fun a b => a.2 ≤ b.2) := by
  have key : ∀ (m : List (String × Int)) (acc : List (String × Int)),
      acc.Pairwise (fun a b => a.2 ≤ b.2) →
      (m.foldl (fun acc x => insertSorted x acc) acc).Pairwise (fun a b => a.2 ≤ b.2) := by
    intro m
    induction m with
    | nil => intro acc h; exact h
    | cons y ys ih =>
      intro acc h
      rw [List.foldl_cons]
      exact ih _ (pairwise_insertSorted y acc h)
  exact key l [] List.Pairwise.nil

/-! ### Helper lemmas about clipping and the range loop -/

theorem clip0_eq (total s e : Int) :
    clip0 total s e =
      if min e total < max s 1 then none
      else some (max s 1 - 1, min e total - 1) := by
  show (if (if total ≤ e - 1 then total - 1 else e - 1) < (if s - 1 < 0 then 0 else s - 1)
        then none
        else some ((if s - 1 < 0 then (0 : Int) else s - 1),
                   (if total ≤ e - 1 then total - 1 else e - 1))) = _
  have hs : (if s - 1 < 0 then (0 : Int) else s - 1) = max s 1 - 1 := by
    split <;> omega
  have he : (if total ≤ e - 1 then total - 1 else e - 1) = min e total - 1 := by
    split <;> omega
  rw [hs, he]
  exact if_congr (by omega) rfl rfl

theorem clip0_some_facts (total s e a b : Int) (h : clip0 total s e = some (a, b)) :
    a = max s 1 - 1 ∧ b = min e total - 1 ∧ max s 1 ≤ min e total := by
  rw [clip0_eq] at h
  by_cases hc : min e total < max s 1
  · rw [if_pos hc] at h; exact Option.noConfusion h
  · rw [if_neg hc] at h
    have := Option.some.injEq _ _ ▸ h
    exact ⟨(Prod.mk.injEq _ _ _ _ ▸ this).1.symm, (Prod.mk.injEq _ _ _ _ ▸ this).2.symm,
      by omega⟩

theorem rangesLoop_bounds (total : Int) (l : List (String × Int)) :
    ∀ (i : Nat), ∀ r ∈ rangesLoop total i l,
      r.start0 ≤ r.end0 ∧ 0 ≤ r.start0 ∧ r.end0 ≤ total - 1 := by
  induction l with
  | nil => intro i r hr; exact absurd hr (List.not_mem_nil r)
  | cons x rest ih =>
    obtain ⟨t, s⟩ := x
    intro i r hr
    cases hc : clip0 total s (candEnd total rest) with
    | none =>
      rw [rangesLoop, hc] at hr
      exact ih (i + 1) r hr
    | some p =>
      obtain ⟨a, b⟩ := p
      rw [rangesLoop, hc] at hr
      rcases List.mem_cons.mp hr with rfl | hr
      · obtain ⟨ha, hb, hab⟩ := clip0_some_facts total s (candEnd total rest) a b hc
        refine ⟨by simp only; omega, by simp only; omega, by simp only; omega⟩
      · exact ih (i + 1) r hr

theorem rangesLoop_start_lb (total : Int) (l : List (String × Int)) (q : Int)
    (hq : ∀ x ∈ l, q ≤ x.2) :
    ∀ (i : Nat), ∀ r ∈ rangesLoop total i l, q - 1 ≤ r.start0 := by
  induction l with
  | nil => intro i r hr; exact absurd hr (List.not_mem_nil r)
  | cons x rest ih =>
    obtain ⟨t, s⟩ := x
    intro i r hr
    have hrest : ∀ x ∈ rest, q ≤ x.2 := fun x hx => hq x (List.mem_cons_of_mem _ hx)
    cases hc : clip0 total s (candEnd total rest) with
    | none =>
      rw [rangesLoop, hc] at hr
      exact ih hrest (i + 1) r hr
    | some p =>
      obtain ⟨a, b⟩ := p
      rw [rangesLoop, hc] at hr
      rcases List.mem_cons.mp hr with rfl | hr
      · obtain ⟨ha, -, -⟩ := clip0_some_facts total s (candEnd total rest) a b hc
        have hqs : q ≤ s := hq (t, s) (List.mem_cons_self _ _)
        simp only
        omega
      · exact ih hrest (i + 1) r hr

theorem rangesLoop_pairwise (total : Int) (l : List (String × Int))
    (hs : l.Pairwise (fun a b => a.2 ≤ b.2)) :
    ∀ (i : Nat),
      (rangesLoop total i l).Pairwise (fun r1 r2 => r1.end0 < r2.start0) := by
  induction l with
  | nil => intro i; exact List.Pairwise.nil
  | cons x rest ih =>
    obtain ⟨t, s⟩ := x
    intro i
    rcases List.pairwise_cons.mp hs with ⟨hhead, htail⟩
    cases hc : clip0 total s (candEnd total rest) with
    | none =>
      rw [rangesLoop, hc]
      exact ih htail (i + 1)
    | some p =>
      obtain ⟨a, b⟩ := p
      rw [rangesLoop, hc]
      refine List.pairwise_cons.mpr ⟨?_, ih htail (i + 1)⟩
      intro r hr
      obtain ⟨-, hb, -⟩ := clip0_some_facts total s (candEnd total rest) a b hc
      cases rest with
      | nil => exact absurd hr (List.not_mem_nil r)
      | cons y rest2 =>
        obtain ⟨t2, s2⟩ := y
        have hlb : ∀ x ∈ (t2, s2) :: rest2, s2 ≤ x.2 := by
          intro x hx
          rcases List.mem_cons.mp hx with rfl | hx
          · exact le_refl _
          · exact (List.pairwise_cons.mp htail).1 x hx
        have := rangesLoop_start_lb total ((t2, s2) :: rest2) s2 hlb (i + 1) r hr
        have hbb : b = min (s2 - 1) total - 1 := hb
        simp only
        omega

theorem rangesLoop_idx_lb (total : Int) (l : List (String × Int)) :
    ∀ (i : Nat), ∀ r ∈ rangesLoop total i l, i ≤ r.idx := by
  induction l with
  | nil => intro i r hr; exact absurd hr (List.not_mem_nil r)
  | cons x rest ih =>
    obtain ⟨t, s⟩ := x
    intro i r hr
    cases hc : clip0 total s (candEnd total rest) with
    | none =>
      rw [rangesLoop, hc] at hr
      exact Nat.le_of_succ_le (ih (i + 1) r hr)
    | some p =>
      obtain ⟨a, b⟩ := p
      rw [rangesLoop, hc] at hr
      rcases List.mem_cons.mp hr with rfl | hr
      · exact le_refl _
      · exact Nat.le_of_succ_le (ih (i + 1) r hr)

theorem rangesLoop_idx_pairwise (total : Int) (l : List (String × Int)) :
    ∀ (i : Nat), (rangesLoop total i l).Pairwise (fun r1 r2 => r1.idx < r2.idx) := by
  induction l with
  | nil => intro i; exact List.Pairwise.nil
  | cons x rest ih =>
    obtain ⟨t, s⟩ := x
    intro i
    cases hc : clip0 total s (candEnd total rest) with
    | none => rw [rangesLoop, hc]; exact ih (i + 1)
    | some p =>
      obtain ⟨a, b⟩ := p
      rw [rangesLoop, hc]
      refine List.pairwise_cons.mpr ⟨?_, ih (i + 1)⟩
      intro r hr
      exact Nat.lt_of_succ_le (rangesLoop_idx_lb total rest (i + 1) r hr)

theorem rangesLoop_eq_filterMap (total : Int) (l : List (String × Int)) :
    ∀ (i : Nat),
      rangesLoop total i l = (candidatesFrom total i l).filterMap
        (fun c => (clip0 total c.2.2.1 c.2.2.2).map
          (fun p => OutRange.mk c.1 c.2.1 p.1 p.2)) := by
  induction l with
  | nil => intro i; rfl
  | cons x rest ih =>
    obtain ⟨t, s⟩ := x
    intro i
    rw [candidatesFrom, List.filterMap_cons]
    cases hc : clip0 total s (candEnd total rest) with
    | none =>
      rw [rangesLoop, hc]
      simp only [hc, Option.map_none']
      exact ih (i + 1)
    | some p =>
      obtain ⟨a, b⟩ := p
      rw [rangesLoop, hc]
      simp only [hc, Option.map_some']
      rw [ih (i + 1)]

/-! ### Helper lemma about the entry-building loop -/

theorem entriesLoop_eq (ls : List String) :
    ∀ acc, entriesLoop acc ls = acc ++ ls.filterMap parseRow := by
  induction ls with
  | nil => intro acc; simp [entriesLoop]
  | cons l ls ih =>
    intro acc
    rw [entriesLoop, List.filterMap_cons]
    cases hp : parseRow l with
    | none => rw [ih acc]
    | some e => rw [ih (acc ++ [e]), List.append_assoc]; rfl

/-! ### Claim theorems -/

/-- C1: For the entry list `[(A,1),(B,19),(C,35)]` with anchor physical page 5
and document page count 50, resolution computes offset 4, physical start
pages `[5,23,39]`, and emits exactly the ranges
`[(A,5,22),(B,23,38),(C,39,50)]`: each entry's end page is the next sorted
entry's start page minus 1, and the last entry's end page is the document
page count. -/
theorem C1_example_resolution :
    offsetOf [("A", 1), ("B", 19), ("C", 35)] 5 = some 4
  ∧ (adjusted_entries [("A", 1), ("B", 19), ("C", 35)] 4).map (fun e => e.2) = [5, 23, 39]
  ∧ pageRanges [("A", 1), ("B", 19), ("C", 35)] 5 50 =
      some [("A", 5, 22), ("B", 23, 38), ("C", 39, 50)] :=
  ⟨by decide, by decide, by decide⟩

/-- C3: On every non-empty token made solely of roman symbols in either
case, `roman_to_int` equals the spec's least-to-most-significant
add-or-subtract decoding rule (`specDecode`), without any well-formedness
validation (so `"IIII"` and `"VX"` decode without error), and the fixture
labels decode to their classical values. -/
theorem C3_roman_decoding :
    (∀ s : String, s.data ≠ [] → s.data.all isRomanChar = true →
        roman_to_int s = some (specDecode s))
  ∧ parse_label "iv" = some 4 ∧ parse_label "ix" = some 9
  ∧ parse_label "xiii" = some 13 ∧ parse_label "xl" = some 40
  ∧ parse_label "mcmxcix" = some 1999
  ∧ roman_to_int "IIII" = some 4 ∧ roman_to_int "VX" = some 5 :=
  ⟨fun s _ h => roman_to_int_eq_specDecode s h, by decide, by decide, by decide,
   by decide, by decide, by decide, by decide⟩

/-- Witness for C3: the universal decoding equivalence at `"mcmxcix"`. -/
theorem C3_roman_decoding_witness :
    "mcmxcix".data ≠ [] ∧ "mcmxcix".data.all isRomanChar = true
  ∧ roman_to_int "mcmxcix" = some (specDecode "mcmxcix") ∧ specDecode "mcmxcix" = 1999 :=
  ⟨by decide, by decide, C3_roman_decoding.1 "mcmxcix" (by decide) (by decide), by decide⟩

/-- C4: The resolver filters to entries with positive ordinal and fails
(`none`, the fatal `NoNumericEntries` exit) exactly when that filter is
empty; otherwise the anchor is the first entry attaining the minimum
ordinal of the filtered list (everything before it is strictly larger,
everything after it at least as large), and the offset is the supplied
anchor physical page minus the anchor's ordinal. -/
theorem C4_anchor_and_offset (es : List (String × Int)) (actual : Int) :
    (firstNumbered es = none ↔ numeric_entries es = [])
  ∧ ∀ a : String × Int, firstNumbered es = some a →
      0 < a.2
      ∧ (∃ l1 l2, numeric_entries es = l1 ++ a :: l2
          ∧ (∀ b ∈ l1, a.2 < b.2) ∧ (∀ b ∈ l2, a.2 ≤ b.2))
      ∧ offsetOf es actual = some (actual - a.2) := by
  refine ⟨firstNumbered_none_iff es, ?_⟩
  intro a ha
  refine ⟨firstNumbered_pos es a ha, firstNumbered_split es a ha, ?_⟩
  unfold offsetOf
  rw [ha]
  rfl

/-- Witness for C4: on a list with a zero-ordinal entry and a duplicate
minimum, the anchor is the first entry with the minimal positive ordinal. -/
theorem C4_anchor_and_offset_witness :
    firstNumbered [("R", 0), ("B", 2), ("A", 1), ("Z", 1)] = some ("A", 1)
  ∧ (0 < (("A", 1) : String × Int).2
      ∧ (∃ l1 l2, numeric_entries [("R", 0), ("B", 2), ("A", 1), ("Z", 1)] =
            l1 ++ ("A", 1) :: l2
          ∧ (∀ b ∈ l1, (("A", 1) : String × Int).2 < b.2)
          ∧ (∀ b ∈ l2, (("A", 1) : String × Int).2 ≤ b.2))
      ∧ offsetOf [("R", 0), ("B", 2), ("A", 1), ("Z", 1)] 7 =
          some (7 - (("A", 1) : String × Int).2)) :=
  ⟨by decide,
   (C4_anchor_and_offset [("R", 0), ("B", 2), ("A", 1), ("Z", 1)] 7).2 ("A", 1) (by decide)⟩

/-- C5 counterexample: with entries `[(A,1),(B,1),(C,6)]`, anchor page 5
and 20 document pages, the range of `A` is dropped and the two surviving
files are named `02 B.pdf` and `03 C.pdf` — the numbering is not the
consecutive `01`, `02` the claim requires. -/
theorem C5_gapless_numbering_counterexample :
    outputFilenames [("A", 1), ("B", 1), ("C", 6)] 5 20 = some ["02 B.pdf", "03 C.pdf"]
  ∧ outputFilenames [("A", 1), ("B", 1), ("C", 6)] 5 20 ≠ some ["01 B.pdf", "02 C.pdf"] :=
  ⟨by decide, by decide⟩

/-- C5 (amended): each output filename is `"<NN> <sanitized_title>.pdf"`
where `NN` is the zero-padded 2-digit successor of the entry's position in
the sorted candidate list (dropped candidates included), so the numbers of
the surviving files are strictly increasing but may have gaps and need not
start at `01`. -/
theorem C5_filename_from_candidate_position (es : List (String × Int)) (actual total : Int)
    (out : List OutRange) (h : resolveRanges es actual total = some out) :
    outputFilenames es actual total =
      some (out.map (fun r => pad2 (r.idx + 1) ++ " " ++ sanitize_filename r.title ++ ".pdf"))
  ∧ out.Pairwise (fun r1 r2 => r1.idx < r2.idx) := by
  constructor
  · unfold outputFilenames
    rw [h]
    rfl
  · unfold resolveRanges at h
    cases hf : firstNumbered es with
    | none => rw [hf] at h; exact Option.noConfusion h
    | some a =>
      rw [hf] at h
      have hout : rangesLoop total 0 (sortByPage (adjusted_entries es (actual - a.2))) = out :=
        Option.some.injEq _ _ ▸ h
      rw [← hout]
      exact rangesLoop_idx_pairwise total _ 0

/-- Witness for C5 (amended): the amended numbering at the
counterexample's input. -/
theorem C5_filename_from_candidate_position_witness :
    resolveRanges [("A", 1), ("B", 1), ("C", 6)] 5 20 =
      some [⟨1, "B", 4, 8⟩, ⟨2, "C", 9, 19⟩]
  ∧ (outputFilenames [("A", 1), ("B", 1), ("C", 6)] 5 20 =
      some (([⟨1, "B", 4, 8⟩, ⟨2, "C", 9, 19⟩] : List OutRange).map
        (fun r => pad2 (r.idx + 1) ++ " " ++ sanitize_filename r.title ++ ".pdf"))
     ∧ ([⟨1, "B", 4, 8⟩, ⟨2, "C", 9, 19⟩] : List OutRange).Pairwise
        (fun r1 r2 => r1.idx < r2.idx)) :=
  ⟨by decide, C5_filename_from_candidate_position [("A", 1), ("B", 1), ("C", 6)] 5 20 _ (by decide)⟩

/-- C6: For every entry list, anchor page and positive document page
count, the emitted 1-based ranges are pairwise non-overlapping (no
physical page lies in two of them), their start pages are non-decreasing
in emission order, and every emitted range satisfies
`start ≤ end` with both endpoints in `[1, document_page_count]`. -/
theorem C6_emitted_ranges_invariants (es : List (String × Int)) (actual total : Int)
    (_ht : 0 < total) (out : List (String × Int × Int))
    (h : pageRanges es actual total = some out) :
    out.Pairwise (fun r1 r2 => ∀ p : Int,
      r1.2.1 ≤ p → p ≤ r1.2.2 → ¬(r2.2.1 ≤ p ∧ p ≤ r2.2.2))
  ∧ out.Pairwise (fun r1 r2 => r1.2.1 ≤ r2.2.1)
  ∧ ∀ r ∈ out, r.2.1 ≤ r.2.2 ∧ 1 ≤ r.2.1 ∧ r.2.2 ≤ total := by
  unfold pageRanges at h
  cases hr : resolveRanges es actual total with
  | none => rw [hr] at h; exact Option.noConfusion h
  | some out0 =>
    rw [hr] at h
    have hout : out0.map (fun r => (r.title, r.start0 + 1, r.end0 + 1)) = out :=
      Option.some.injEq _ _ ▸ h
    unfold resolveRanges at hr
    cases hf : firstNumbered es with
    | none => rw [hf] at hr; exact Option.noConfusion hr
    | some a =>
      rw [hf] at hr
      have hout0 : rangesLoop total 0 (sortByPage (adjusted_entries es (actual - a.2))) = out0 :=
        Option.some.injEq _ _ ▸ hr
      have hsorted := pairwise_sortByPage (adjusted_entries es (actual - a.2))
      have hover : out0.Pairwise (fun r1 r2 => r1.end0 < r2.start0) := by
        rw [← hout0]
        exact rangesLoop_pairwise total _ hsorted 0
      have hbnd : ∀ r ∈ out0, r.start0 ≤ r.end0 ∧ 0 ≤ r.start0 ∧ r.end0 ≤ total - 1 := by
        rw [← hout0]
        intro r hrr
        exact rangesLoop_bounds total _ 0 r hrr
      rw [← hout]
      refine ⟨?_, ?_, ?_⟩
      · rw [List.pairwise_map]
        refine hover.imp ?_
        intro r1 r2 h12 p hp1 hp2 hp3
        simp only at hp1 hp2 hp3
        omega
      · rw [List.pairwise_map]
        refine hover.imp_of_mem ?_
        intro r1 r2 h1 h2 h12
        have := hbnd r1 h1
        simp only
        omega
      · intro r hrm
        rcases List.mem_map.mp hrm with ⟨r0, hr0, rfl⟩
        have := hbnd r0 hr0
        simp only
        omega

/-- Witness for C6: the invariants at a concrete resolution. -/
theorem C6_emitted_ranges_invariants_witness :
    (0 : Int) < 30
  ∧ pageRanges [("F", 13), ("I", 1), ("T", 19)] 1 30 =
      some [("I", 1, 12), ("F", 13, 18), ("T", 19, 30)]
  ∧ (([("I", 1, 12), ("F", 13, 18), ("T", 19, 30)] :
        List (String × Int × Int)).Pairwise (fun r1 r2 => ∀ p : Int,
          r1.2.1 ≤ p → p ≤ r1.2.2 → ¬(r2.2.1 ≤ p ∧ p ≤ r2.2.2))
    ∧ ([("I", 1, 12), ("F", 13, 18), ("T", 19, 30)] :
        List (String × Int × Int)).Pairwise (fun r1 r2 => r1.2.1 ≤ r2.2.1)
    ∧ ∀ r ∈ ([("I", 1, 12), ("F", 13, 18), ("T", 19, 30)] :
        List (String × Int × Int)), r.2.1 ≤ r.2.2 ∧ 1 ≤ r.2.1 ∧ r.2.2 ≤ 30) :=
  ⟨by decide, by decide,
   C6_emitted_ranges_invariants [("F", 13), ("I", 1), ("T", 19)] 1 30 (by decide) _ (by decide)⟩

/-- C7: The in-loop safety check clamps a start below 1 up to 1 and an end
above the document page count down to that count (stated here through the
0-based arithmetic the code performs), drops the range exactly when the
clipped end is below the clipped start, and the loop is a `filterMap` over
the candidate list, so a dropped range never aborts the run and every
other surviving range is still emitted in order. -/
theorem C7_clipping (total s e : Int) (i : Nat) (l : List (String × Int)) :
    clip0 total s e =
      (if min e total < max s 1 then none else some (max s 1 - 1, min e total - 1))
  ∧ rangesLoop total i l = (candidatesFrom total i l).filterMap
      (fun c => (clip0 total c.2.2.1 c.2.2.2).map
        (fun p => OutRange.mk c.1 c.2.1 p.1 p.2)) :=
  ⟨clip0_eq total s e, rangesLoop_eq_filterMap total l i⟩

/-- C8: The first line of the input block is dropped as a header exactly
when its tab-split cells include both `"PDF File Name"` and `"PDF Page"`
as whole cells; otherwise (including partial resemblance) it is parsed as
a data row, and the produced entries are the per-row parses in input line
order. -/
theorem C8_header_detection (first : String) (rest : List String) :
    load_entries (first :: rest) =
      if "PDF File Name" ∈ rowCells first ∧ "PDF Page" ∈ rowCells first
      then rest.filterMap parseRow
      else (first :: rest).filterMap parseRow := by
  unfold load_entries
  show entriesLoop []
      (if "PDF File Name" ∈ rowCells first ∧ "PDF Page" ∈ rowCells first
       then rest else first :: rest) = _
  by_cases hc : "PDF File Name" ∈ rowCells first ∧ "PDF Page" ∈ rowCells first
  · rw [if_pos hc, if_pos hc, entriesLoop_eq rest [], List.nil_append]
  · rw [if_neg hc, if_neg hc, entriesLoop_eq (first :: rest) [], List.nil_append]

/-- C9: On every string accepted by the roman-numeral guard, the decoder
is total at the call site: `roman_to_int` succeeds on the stripped token
(every lowercased character is a key of the symbol table) and
`parse_label` returns a value — the decode can never raise. -/
theorem C9_decoder_total_on_guard (s : String) (h : looks_like_roman s = true) :
    (roman_to_int (strip s)).isSome = true ∧ ∃ n : Int, parse_label s = some n := by
  have hparts : (strip s).data.isEmpty = false ∧ (strip s).data.all isRomanChar = true := by
    unfold looks_like_roman at h
    rcases Bool.and_eq_true_iff.mp h with ⟨h1, h2⟩
    refine ⟨?_, h2⟩
    cases hb : (strip s).data.isEmpty
    · rfl
    · rw [hb] at h1; exact absurd h1 (by decide)
  have htot : (roman_to_int (strip s)).isSome = true := roman_to_int_total (strip s) hparts.2
  refine ⟨htot, ?_⟩
  have hdig : isDigitString (strip s) = false := by
    unfold isDigitString
    cases hsd : (strip s).data with
    | nil =>
      exact absurd (hsd ▸ hparts.1) (by decide)
    | cons c cs =>
      have hcr : isRomanChar c = true := by
        have hall := hparts.2
        rw [hsd] at hall
        exact List.all_eq_true.mp hall c (List.mem_cons_self _ _)
      have hnd : c.isDigit = false := isRomanChar_not_digit c hcr
      simp [hnd]
  have hguard : looks_like_roman (strip s) = true := by
    rw [looks_like_roman_strip]
    exact h
  have hpl : parse_label s = roman_to_int (strip s) := by
    simp only [parse_label]
    rw [hdig, hguard]
    rfl
  obtain ⟨n, hn⟩ := Option.isSome_iff_exists.mp htot
  exact ⟨n, by rw [hpl]; exact hn⟩

/-- Witness for C9: a guard-accepted mixed-case token with surrounding
whitespace decodes without failure. -/
theorem C9_decoder_total_on_guard_witness :
    looks_like_roman " XIv " = true
  ∧ ((roman_to_int (strip " XIv ")).isSome = true
      ∧ ∃ n : Int, parse_label " XIv " = some n) :=
  ⟨by decide, C9_decoder_total_on_guard " XIv " (by decide)⟩

/-- C10: Whenever an anchor entry exists, the offset is the supplied
anchor physical page minus the anchor's ordinal, and the anchor's own
offset-adjusted entry is exactly `(title, anchor physical page)` — the
adjustment is the identity at the anchor, independent of any document
page count. -/
theorem C10_anchor_maps_to_actual (es : List (String × Int)) (actual : Int)
    (a : String × Int) (h : firstNumbered es = some a) :
    offsetOf es actual = some (actual - a.2)
  ∧ (a.1, actual) ∈ adjusted_entries es (actual - a.2) := by
  constructor
  · unfold offsetOf
    rw [h]
    rfl
  · have hmem : a ∈ es := by
      have hm := firstNumbered_mem es a h
      unfold numeric_entries at hm
      exact (List.mem_filter.mp hm).1
    unfold adjusted_entries
    refine List.mem_map.mpr ⟨a, hmem, ?_⟩
    show (a.1, a.2 + (actual - a.2)) = (a.1, actual)
    rw [Prod.mk.injEq]
    exact ⟨rfl, by omega⟩

/-- Witness for C10: the anchor `("I", 2)` with supplied physical page 9
resolves to physical page 9 after adjustment. -/
theorem C10_anchor_maps_to_actual_witness :
    firstNumbered [("P", 13), ("I", 2)] = some ("I", 2)
  ∧ (offsetOf [("P", 13), ("I", 2)] 9 = some (9 - (("I", 2) : String × Int).2)
      ∧ ((("I", 2) : String × Int).1, (9 : Int)) ∈
          adjusted_entries [("P", 13), ("I", 2)] (9 - (("I", 2) : String × Int).2)) :=
  ⟨by decide, C10_anchor_maps_to_actual [("P", 13), ("I", 2)] 9 ("I", 2) (by decide)⟩

end PdfSplit
